import Mathlib

/-!
Verification of the doodle-type game core (`src/games/doodle_type/game.py`).

The development shallowly embeds, from the source:
  * the asset-job registry (`DownloadJob`, `job_queue`, `failed_words` and
    the operations `create_job`, `mark_image_ready`, `mark_audio_ready`,
    `mark_audio_failed`, `get_completed_jobs`, `get_backup_job`,
    `clean_failed_jobs`, job counts);
  * the pure stroke renderer (`decode_stroke`, `all_points`, `get_bounds`,
    `render`);
  * the state mutations of the main loop of `run_game` that touch the
    on-screen item pool (completed-job promotion, keyboard handling, and
    the reveal-completion path).

Python dictionaries are embedded as association lists in insertion order
(Python 3.7+ dicts preserve insertion order); Python sets of words as
lists with membership-checked insertion; floats as rationals; randomness
and wall-clock time as oracle parameters.  Surfaces are embedded as a
canvas size together with the ordered list of pygame draw calls issued
on them.
-/

namespace DoodleType

/-- A raw point as delivered by quickdraw: a list of coordinates
(`decode_stroke` keeps those with at least two entries). -/
abbrev RawPoint := List Int

/-- A raw stroke: a list of raw points. -/
abbrev RawStroke := List RawPoint

/-- The image payload stored in a job: quickdraw drawing objects carry a
`recognized` flag and a stroke list. -/
structure Drawing where
  recognized : Bool
  strokes : List RawStroke
deriving DecidableEq

/-- `DownloadJob` dataclass (game.py lines 61-77). -/
structure DownloadJob where
  word : String
  image_ready : Bool := false
  audio_ready : Bool := false
  image_data : Option Drawing := none
  visible : Bool := true
  image_failed : Bool := false
  audio_failed : Bool := false
deriving DecidableEq

/-- `DownloadJob.is_complete` property (line 72-73). -/
def DownloadJob.is_complete (j : DownloadJob) : Bool :=
  j.image_ready && j.audio_ready && !j.image_failed && !j.audio_failed

/-- `DownloadJob.has_failed` property (line 76-77). -/
def DownloadJob.has_failed (j : DownloadJob) : Bool :=
  j.image_failed || j.audio_failed

/-- An insertion-ordered Python dict `word -> DownloadJob`. -/
abbrev JobDict := List (String × DownloadJob)

/-- Keys of a dict, in insertion order. -/
def dictKeys (q : JobDict) : List String := q.map Prod.fst

/-- `q[w]` lookup (first entry with the key; keys are unique in practice). -/
def dictGet (q : JobDict) (w : String) : Option DownloadJob :=
  (q.find? (fun p => p.1 == w)).map Prod.snd

/-- `q[w] = j` assignment: updates the entry in place if the key exists,
otherwise appends (Python dict semantics). -/
def dictSet (q : JobDict) (w : String) (j : DownloadJob) : JobDict :=
  if q.any (fun p => p.1 == w) then
    q.map (fun p => if p.1 == w then (w, j) else p)
  else q ++ [(w, j)]

/-- `q.pop(w)`: removes the entry with key `w`. -/
def dictPop (q : JobDict) (w : String) : JobDict :=
  q.filter (fun p => p.1 != w)

/-- Python `set.add` on a word set embedded as a list. -/
def setAdd (s : List String) (w : String) : List String :=
  if s.contains w then s else s ++ [w]

/-- The module-level registry state: `job_queue`, the image
`download_queue`, the voice-preload requests issued through the
resource manager, and the `failed_words` exclusion set
(lines 80-84). -/
structure Registry where
  job_queue : JobDict
  download_queue : List String
  voice_queue : List String
  failed_words : List String
deriving DecidableEq

/-- `create_job(word, resource_manager, visible)` (lines 86-99).
`hasRM` records whether a resource manager was passed (the voice
preload is only queued when it was). -/
def create_job (reg : Registry) (word : String) (hasRM : Bool) (visible : Bool) :
    Bool × Registry :=
  if ¬ (dictKeys reg.job_queue).contains word ∧ ¬ reg.failed_words.contains word then
    (true,
     { reg with
        job_queue := reg.job_queue ++ [(word, { word := word, visible := visible })],
        download_queue := reg.download_queue ++ [word],
        voice_queue := if hasRM then reg.voice_queue ++ [word] else reg.voice_queue })
  else (false, reg)

/-- `mark_image_ready(word, image_data)` (lines 101-115). -/
def mark_image_ready (reg : Registry) (word : String) (image_data : Option Drawing) :
    Bool × Registry :=
  match dictGet reg.job_queue word with
  | none => (false, reg)
  | some job =>
    match image_data with
    | none =>
      (false, { reg with job_queue := dictSet reg.job_queue word { job with image_failed := true } })
    | some d =>
      let j := { job with image_ready := true, image_data := some d }
      (j.is_complete, { reg with job_queue := dictSet reg.job_queue word j })

/-- `mark_audio_ready(word)` (lines 117-124). -/
def mark_audio_ready (reg : Registry) (word : String) : Bool × Registry :=
  match dictGet reg.job_queue word with
  | none => (false, reg)
  | some job =>
    let j := { job with audio_ready := true }
    (j.is_complete, { reg with job_queue := dictSet reg.job_queue word j })

/-- `mark_audio_failed(word)` (lines 126-132); always returns `False`. -/
def mark_audio_failed (reg : Registry) (word : String) : Bool × Registry :=
  match dictGet reg.job_queue word with
  | none => (false, reg)
  | some job =>
    (false, { reg with job_queue := dictSet reg.job_queue word { job with audio_failed := true } })

/-- The `for word in completed_words: completed.append(job_queue.pop(word))`
loop of `get_completed_jobs` (lines 144-145). -/
def popWords : List String → JobDict → List DownloadJob × JobDict
  | [], q => ([], q)
  | w :: ws, q =>
    match dictGet q w with
    | some j =>
      let r := popWords ws (dictPop q w)
      (j :: r.1, r.2)
    | none => popWords ws q

/-- `get_completed_jobs(visible_only)` (lines 134-146). -/
def get_completed_jobs (reg : Registry) (visible_only : Bool) :
    List DownloadJob × Registry :=
  let completed_words :=
    if visible_only then
      dictKeys (reg.job_queue.filter (fun p => p.2.is_complete && p.2.visible))
    else
      dictKeys (reg.job_queue.filter (fun p => p.2.is_complete))
  let r := popWords completed_words reg.job_queue
  (r.1, { reg with job_queue := r.2 })

/-- `get_backup_job()` (lines 148-156): first complete invisible job is
flipped visible and popped. -/
def get_backup_job (reg : Registry) : Option DownloadJob × Registry :=
  match reg.job_queue.find? (fun p => p.2.is_complete && !p.2.visible) with
  | some p =>
    (some { p.2 with visible := true }, { reg with job_queue := dictPop reg.job_queue p.1 })
  | none => (none, reg)

/-- The bounded replacement loop `while attempts < 10: ...` of
`clean_failed_jobs` (lines 169-175) and of the backup refill in
`run_game` (lines 689-695).  `oracle n` is the word returned by the
`n`-th `random.choice(CATEGORIES)` draw; `fuel` counts the remaining
attempts. -/
def replaceLoop (hasRM : Bool) (vis : Bool) (oracle : Nat → String) :
    Nat → Nat → Registry → Registry
  | 0, _, reg => reg
  | fuel + 1, attempts, reg =>
    let r := create_job reg (oracle attempts) hasRM vis
    if r.1 then r.2 else replaceLoop hasRM vis oracle fuel (attempts + 1) r.2

/-- The `for failed_job in failed_jobs` replacement pass of
`clean_failed_jobs` (lines 167-175); `oracle j` is the random-word
oracle used for the `j`-th failed job. -/
def replaceAll (hasRM : Bool) (oracle : Nat → Nat → String) :
    Nat → List DownloadJob → Registry → Registry
  | _, [], reg => reg
  | j, fj :: rest, reg =>
    replaceAll hasRM oracle (j + 1) rest (replaceLoop hasRM fj.visible (oracle j) 10 0 reg)

/-- `clean_failed_jobs(resource_manager)` (lines 158-175): pop every
failed job, add its word to `failed_words`, then attempt bounded random
replacements. -/
def clean_failed_jobs (reg : Registry) (hasRM : Bool) (oracle : Nat → Nat → String) :
    Registry :=
  let failed_pairs := reg.job_queue.filter (fun p => p.2.has_failed)
  let reg1 : Registry :=
    { reg with
        job_queue := reg.job_queue.filter (fun p => !p.2.has_failed),
        failed_words := failed_pairs.foldl (fun s p => setAdd s p.1) reg.failed_words }
  replaceAll hasRM oracle 0 (failed_pairs.map Prod.snd) reg1

/-- `get_job_count()` (lines 177-180). -/
def get_job_count (reg : Registry) : Nat := reg.job_queue.length

/-- `get_visible_job_count()` (lines 182-185). -/
def get_visible_job_count (reg : Registry) : Nat :=
  (reg.job_queue.filter (fun p => p.2.visible)).length

/-- `get_backup_job_count()` (lines 187-190). -/
def get_backup_job_count (reg : Registry) : Nat :=
  (reg.job_queue.filter (fun p => !p.2.visible)).length

/-! ## Stroke renderer -/

/-- Python `int(q)` on a float embedded as a rational: truncation toward
zero. -/
def pyInt (q : ℚ) : Int := if 0 ≤ q then ⌊q⌋ else -⌊-q⌋

/-- `decode_stroke(stroke)` (lines 257-265): keep the points with at
least two coordinates, as `(x, y)` pairs. -/
def decode_stroke (stroke : RawStroke) : List (Int × Int) :=
  stroke.filterMap (fun pt =>
    match pt with
    | a :: b :: _ => some (a, b)
    | _ => none)

/-- `all_points(strokes)` (lines 267-271). -/
def all_points (strokes : List RawStroke) : List (Int × Int) :=
  (strokes.map decode_stroke).flatten

/-- `get_bounds(strokes)` (lines 273-293): `(minx, miny, w, h)` with the
zero width/height clamped to 1. -/
def get_bounds (strokes : List RawStroke) : Int × Int × Int × Int :=
  match all_points strokes with
  | [] => (0, 0, 1, 1)
  | p :: ps =>
    let minx := ps.foldl (fun a q => min a q.1) p.1
    let maxx := ps.foldl (fun a q => max a q.1) p.1
    let miny := ps.foldl (fun a q => min a q.2) p.2
    let maxy := ps.foldl (fun a q => max a q.2) p.2
    let w := maxx - minx
    let h := maxy - miny
    (minx, miny, if w = 0 then 1 else w, if h = 0 then 1 else h)

/-- One pygame draw call issued on a surface. -/
inductive DrawCmd where
  | rect (x y w h : Int) (width : Nat) (color : Nat)
  | lines (pts : List (ℚ × ℚ)) (width : Nat) (color : Nat)
deriving DecidableEq

/-- A pygame surface: its dimensions plus the ordered draw calls issued
on it (it starts fully transparent under `SRCALPHA`). -/
structure Raster where
  w : Int
  h : Int
  cmds : List DrawCmd
deriving DecidableEq

/-- The scaling of a decoded stroke (line 328):
`((x - minx) * scale + offset, (y - miny) * scale + offset)`; the offset
is the line width. -/
def scaleStroke (minx miny : Int) (scale : ℚ) (offset : Nat)
    (decoded : List (Int × Int)) : List (ℚ × ℚ) :=
  decoded.map (fun p =>
    (((p.1 - minx : Int) : ℚ) * scale + offset, ((p.2 - miny : Int) : ℚ) * scale + offset))

/-- `total_points` of `render` (line 316). -/
def total_points (strokes : List RawStroke) : Nat :=
  (strokes.map (fun s => (decode_stroke s).length)).sum

/-- `points_to_draw = int(total_points * progress)` (line 317). -/
def points_to_draw (strokes : List RawStroke) (progress : ℚ) : Int :=
  pyInt ((total_points strokes : ℚ) * progress)

/-- The `for stroke in strokes` animation loop of `render`
(lines 319-346), with `points_drawn` as the accumulator.  It emits the
`pygame.draw.lines` calls in order and stops (`break`) at the straddling
stroke. -/
def drawLoop (color width : Nat) (minx miny : Int) (scale : ℚ) (budget : Int) :
    List RawStroke → Int → List DrawCmd
  | [], _ => []
  | stroke :: rest, points_drawn =>
    let decoded := decode_stroke stroke
    if decoded.length < 2 then
      drawLoop color width minx miny scale budget rest points_drawn
    else
      let scaled := scaleStroke minx miny scale width decoded
      if points_drawn + decoded.length ≤ budget then
        DrawCmd.lines scaled width color ::
          drawLoop color width minx miny scale budget rest (points_drawn + decoded.length)
      else if points_drawn < budget then
        let points_in_stroke := budget - points_drawn
        if 2 ≤ points_in_stroke then
          [DrawCmd.lines (scaled.take points_in_stroke.toNat) width color]
        else []
      else []

/-- `render(strokes, size, color, width, progress)` (lines 295-348). -/
def render (strokes : List RawStroke) (size : Nat) (color : Nat) (width : Nat)
    (progress : ℚ) : Raster :=
  if strokes = [] then
    { w := size, h := size, cmds := [DrawCmd.rect 0 0 size size width color] }
  else
    let b := get_bounds strokes
    let minx := b.1
    let miny := b.2.1
    let bw := b.2.2.1
    let bh := b.2.2.2
    let scale : ℚ := (size : ℚ) / ((max bw bh : Int) : ℚ)
    { w := pyInt ((bw : ℚ) * scale) + width * 2,
      h := pyInt ((bh : ℚ) * scale) + width * 2,
      cmds := drawLoop color width minx miny scale (points_to_draw strokes progress) strokes 0 }

/-! ### Spec-side description of the animation loop

The following definitions are written from the spec's words (§4.4 /
claim C3): the renderer works through the strokes in order against a
point budget; a stroke fully within the remaining budget is drawn whole,
the straddling stroke is drawn with its first `k ≥ 2` points, later
strokes are not drawn; strokes that decode to fewer than 2 points are
skipped (consuming no budget).  They are compared with `drawLoop`,
the loop translated from the source. -/

/-- Spec-side: the strokes drawn in full, in order (`used` is the budget
already consumed). -/
def specFullStrokes (budget : Int) : List RawStroke → Int → List RawStroke
  | [], _ => []
  | s :: rest, used =>
    let d := decode_stroke s
    if d.length < 2 then specFullStrokes budget rest used
    else if used + d.length ≤ budget then s :: specFullStrokes budget rest (used + d.length)
    else []

/-- Spec-side: the straddling stroke together with its point allowance
`k`, when one exists. -/
def specStraddle (budget : Int) : List RawStroke → Int → Option (RawStroke × Int)
  | [], _ => none
  | s :: rest, used =>
    let d := decode_stroke s
    if d.length < 2 then specStraddle budget rest used
    else if used + d.length ≤ budget then specStraddle budget rest (used + d.length)
    else if used < budget then some (s, budget - used)
    else none

/-- Spec-side: the draw call for the straddling stroke — truncated to
its allowance `k` when `k ≥ 2`, nothing when `k < 2` or when no stroke
straddles the budget. -/
def specStraddleCmds (color width : Nat) (minx miny : Int) (scale : ℚ) (budget : Int)
    (strokes : List RawStroke) (used : Int) : List DrawCmd :=
  match specStraddle budget strokes used with
  | some sk =>
    if 2 ≤ sk.2 then
      [DrawCmd.lines ((scaleStroke minx miny scale width (decode_stroke sk.1)).take sk.2.toNat)
        width color]
    else []
  | none => []

/-- Spec-side: the draw calls the spec's description predicts — the
fully drawn strokes followed by the straddling stroke truncated to its
allowance when that allowance is at least 2. -/
def specCmds (color width : Nat) (minx miny : Int) (scale : ℚ) (budget : Int)
    (strokes : List RawStroke) : List DrawCmd :=
  (specFullStrokes budget strokes 0).map
    (fun s => DrawCmd.lines (scaleStroke minx miny scale width (decode_stroke s)) width color)
  ++ specStraddleCmds color width minx miny scale budget strokes 0

/-! ## Main loop of `run_game`

Only the state the loop mutates is embedded: the registry, the
on-screen `items` and `rects` lists, the `loaded_words` set, the typed
buffer, the reveal (`flash`) state and the running flag.  Surfaces,
captions and screen positions carried by an item do not influence any
control flow apart from the `if it["drawing"]` truthiness test, so an
item keeps its word and drawing; a placement rectangle is kept as a
unit.  Wall-clock time and `random` draws are oracle parameters. -/

/-- An on-screen item as built by `build_from_job` (lines 375-389),
restricted to the fields the control flow reads. -/
structure Item where
  word : String
  drawing : Option Drawing
deriving DecidableEq

/-- The reveal (`flash`) state, restricted to the slot index the
completion path reads (timing fields are wall-clock floats, supplied by
the `flashEnds` oracle instead). -/
structure Flash where
  idx : Nat
deriving DecidableEq

/-- The mutable state of the main loop of `run_game`. -/
structure GameState where
  reg : Registry
  items : List Item
  rects : List Unit
  loaded_words : List String
  buf : String
  flash : Option Flash
  running : Bool
  hasRM : Bool
deriving DecidableEq

/-- The body of the `for job in completed_jobs` loop (lines 522-562):
returns the new state and whether the loop `break`s.  The first branch
is the promotion path (append only when fewer than 5 items are on
screen); the `elif len(items) >= 5` branch converts the popped job to a
backup only when `get_backup_job_count() == 0` and otherwise drops it;
any other case falls through silently. -/
def processJob (st : GameState) (job : DownloadJob) : GameState × Bool :=
  if ¬ st.loaded_words.contains job.word ∧ st.items.length < 5 then
    let it : Item := { word := job.word, drawing := job.image_data }
    if it.drawing.isSome then
      let items := st.items ++ [it]
      let rects := st.rects ++ [()]
      let loaded := setAdd st.loaded_words job.word
      if st.buf ≠ "" ∧ it.word = st.buf then
        ({ st with
            items := items
            rects := rects
            loaded_words := loaded
            flash := some { idx := items.length - 1 }
            buf := "" }, true)
      else
        ({ st with items := items, rects := rects, loaded_words := loaded }, false)
    else (st, false)
  else if 5 ≤ st.items.length then
    if get_backup_job_count st.reg = 0 then
      ({ st with reg := { st.reg with
          job_queue := dictSet st.reg.job_queue job.word { job with visible := false } } },
       false)
    else (st, false)
  else (st, false)

/-- The `for job in completed_jobs` loop with its `break`. -/
def processCompleted (st : GameState) : List DownloadJob → GameState
  | [] => st
  | j :: rest =>
    let r := processJob st j
    if r.2 then r.1 else processCompleted r.1 rest

/-- A keyboard/application event as read by the event loop. -/
inductive KeyEvent where
  | quit
  | backspace
  | space
  | key (c : Char)

/-- The `for idx, it in enumerate(items)` exact-match scan
(lines 593-618). -/
def findMatch (test : String) : List Item → Nat → Option Nat
  | [], _ => none
  | it :: rest, i => if it.word = test then some i else findMatch test rest (i + 1)

/-- One `KEYDOWN` event (lines 570-626); ignored while a flash is
active.  Sound-effect side effects are external. -/
def handleKeydown (st : GameState) (e : KeyEvent) : GameState :=
  if st.flash.isSome then st
  else
    match e with
    | .quit => st
    | .backspace => { st with buf := st.buf.dropRight 1 }
    | .space =>
      let test := st.buf ++ " "
      if st.items.any (fun it => it.word.startsWith test) then { st with buf := test }
      else st
    | .key c =>
      let c := c.toLower
      if c.isAlpha then
        let test := st.buf.push c
        if st.items.any (fun it => it.word.startsWith test) then
          match findMatch test st.items 0 with
          | some idx => { st with buf := "", flash := some { idx := idx } }
          | none => { st with buf := test }
        else st
      else st

/-- The event loop (lines 564-626): a quit signal sets `running` false
and breaks; remaining events are key-downs. -/
def handleEvents (st : GameState) : List KeyEvent → GameState
  | [] => st
  | KeyEvent.quit :: _ => { st with running := false }
  | e :: rest => handleEvents (handleKeydown st e) rest

/-- The flash-completion path (lines 662-702), reached when the total
reveal progress hits 1: remove the revealed item, try a backup
replacement, and refill the backup pool when it is empty.
`backupOracle` supplies the `random.choice(CATEGORIES)` draws of the
refill loop. -/
def endFlash (st : GameState) (f : Flash) (backupOracle : Nat → String) : GameState :=
  let items := if f.idx < st.items.length then st.items.eraseIdx f.idx else st.items
  let rects := if f.idx < st.rects.length then st.rects.eraseIdx f.idx else st.rects
  let r := get_backup_job st.reg
  let reg := r.2
  let next :=
    match r.1 with
    | some bj =>
      if bj.image_data.isSome then
        (items.insertIdx (if f.idx < items.length then f.idx else items.length)
           ({ word := bj.word, drawing := bj.image_data } : Item),
         rects.insertIdx (if f.idx < rects.length then f.idx else rects.length) (),
         setAdd st.loaded_words bj.word)
      else (items, rects, st.loaded_words)
    | none => (items, rects, st.loaded_words)
  let reg :=
    if get_backup_job_count reg = 0 then replaceLoop st.hasRM false backupOracle 10 0 reg
    else reg
  { st with
      items := next.1
      rects := next.2.1
      loaded_words := next.2.2
      reg := reg
      flash := none }

/-- The oracle inputs one loop iteration consumes: the random words
drawn by `clean_failed_jobs`, this tick's pygame events, whether the
active flash's total progress reached 1 this tick, and the random words
drawn by the backup refill. -/
structure LoopOracle where
  cleanOracle : Nat → Nat → String
  events : List KeyEvent
  flashEnds : Bool
  backupOracle : Nat → String

/-- One full iteration of the `while running` loop (lines 514-737)
restricted to its state mutations: failed-job cleanup, completed-job
promotion, event handling, and the flash block (which mutates state
only when the reveal completes). -/
def loopIter (st : GameState) (o : LoopOracle) : GameState :=
  let st := { st with reg := clean_failed_jobs st.reg st.hasRM o.cleanOracle }
  let r := get_completed_jobs st.reg true
  let st := processCompleted { st with reg := r.2 } r.1
  let st := handleEvents st o.events
  match st.flash with
  | some f => if o.flashEnds then endFlash st f o.backupOracle else st
  | none => st

/-! ## Helper lemmas on the dictionary embedding -/

theorem dictGet_map_set (q : JobDict) (w : String) (j : DownloadJob)
    (h : q.any (fun p => p.1 == w) = true) :
    dictGet (q.map (fun p => if p.1 == w then (w, j) else p)) w = some j := by
  induction q with
  | nil => simp at h
  | cons p q ih =>
    by_cases hp : p.1 = w
    · unfold dictGet
      simp only [List.map_cons]
      rw [if_pos (by simpa using hp)]
      rw [List.find?_cons_of_pos _ (by simp)]
      simp
    · have hq : q.any (fun p => p.1 == w) = true := by
        simpa [List.any_cons, hp] using h
      have hrec := ih hq
      unfold dictGet at hrec ⊢
      simp only [List.map_cons]
      rw [if_neg (by simpa using hp)]
      rw [List.find?_cons_of_neg _ (by simpa using hp)]
      exact hrec

theorem dictGet_append_right (q r : JobDict) (w : String)
    (h : q.any (fun p => p.1 == w) = false) :
    dictGet (q ++ r) w = dictGet r w := by
  induction q with
  | nil => simp
  | cons p q ih =>
    simp only [List.any_cons, Bool.or_eq_false_iff] at h
    simp only [dictGet, List.cons_append]
    rw [List.find?_cons_of_neg _ (by simp [h.1])]
    exact ih h.2

theorem dictGet_dictSet (q : JobDict) (w : String) (j : DownloadJob) :
    dictGet (dictSet q w j) w = some j := by
  unfold dictSet
  by_cases h : q.any (fun p => p.1 == w) = true
  · rw [if_pos h]
    exact dictGet_map_set q w j h
  · rw [if_neg h]
    rw [dictGet_append_right q _ w (Bool.eq_false_iff.mpr h)]
    simp [dictGet]

theorem dictSet_key_unique (q : JobDict) (w : String) (j : DownloadJob) :
    ∀ p ∈ dictSet q w j, p.1 = w → p.2 = j := by
  unfold dictSet
  by_cases h : q.any (fun p => p.1 == w) = true
  · rw [if_pos h]
    intro p hp hk
    rcases List.mem_map.mp hp with ⟨p0, _, hmap⟩
    by_cases h0 : p0.1 = w
    · rw [if_pos (by simpa using h0)] at hmap
      rw [← hmap]
    · rw [if_neg (by simpa using h0)] at hmap
      rw [← hmap] at hk
      exact absurd hk h0
  · rw [if_neg h]
    intro p hp hk
    rcases List.mem_append.mp hp with hin | hin
    · exact absurd (List.any_eq_true.mpr ⟨p, hin, by simpa using hk⟩) h
    · simp at hin
      rw [hin]

theorem create_job_failed_words (reg : Registry) (u : String) (h v : Bool) :
    (create_job reg u h v).2.failed_words = reg.failed_words := by
  unfold create_job
  split <;> rfl

theorem replaceLoop_failed_words (h v : Bool) (o : Nat → String) :
    ∀ (fuel attempts : Nat) (reg : Registry),
      (replaceLoop h v o fuel attempts reg).failed_words = reg.failed_words := by
  intro fuel
  induction fuel with
  | zero => intro _ _; rfl
  | succ n ih =>
    intro attempts reg
    simp only [replaceLoop]
    by_cases hc : (create_job reg (o attempts) h v).1 = true
    · rw [if_pos hc, create_job_failed_words]
    · rw [if_neg hc, ih, create_job_failed_words]

theorem replaceAll_failed_words (h : Bool) (o : Nat → Nat → String) :
    ∀ (i : Nat) (l : List DownloadJob) (reg : Registry),
      (replaceAll h o i l reg).failed_words = reg.failed_words := by
  intro i l
  induction l generalizing i with
  | nil => intro _; rfl
  | cons fj rest ih =>
    intro reg
    unfold replaceAll
    rw [ih, replaceLoop_failed_words]

theorem mem_setAdd_self (s : List String) (w : String) : w ∈ setAdd s w := by
  unfold setAdd
  split
  · next h => exact List.mem_of_elem_eq_true h
  · simp

theorem mem_setAdd_of_mem (s : List String) (v w : String) (h : v ∈ s) :
    v ∈ setAdd s w := by
  unfold setAdd
  split
  · exact h
  · exact List.mem_append_left _ h

theorem mem_foldl_setAdd_of_mem (v : String) :
    ∀ (pairs : List (String × DownloadJob)) (s : List String), v ∈ s →
      v ∈ pairs.foldl (fun s p => setAdd s p.1) s := by
  intro pairs
  induction pairs with
  | nil => intro s h; exact h
  | cons p rest ih =>
    intro s h
    exact ih _ (mem_setAdd_of_mem s v p.1 h)

theorem mem_foldl_setAdd_of_key (w : String) :
    ∀ (pairs : List (String × DownloadJob)) (s : List String) (j : DownloadJob),
      (w, j) ∈ pairs → w ∈ pairs.foldl (fun s p => setAdd s p.1) s := by
  intro pairs
  induction pairs with
  | nil => intro _ _ h; simp at h
  | cons p rest ih =>
    intro s j h
    rcases List.mem_cons.mp h with h | h
    · rw [← h]
      exact mem_foldl_setAdd_of_mem w rest _ (mem_setAdd_self s w)
    · exact ih _ j h

theorem clean_failed_words_mono (reg : Registry) (h : Bool) (o : Nat → Nat → String)
    (v : String) (hv : v ∈ reg.failed_words) :
    v ∈ (clean_failed_jobs reg h o).failed_words := by
  unfold clean_failed_jobs
  rw [replaceAll_failed_words]
  exact mem_foldl_setAdd_of_mem v _ _ hv

/-! ## C5 — registry idempotence of `create_job` -/

theorem create_job_noop (reg : Registry) (word : String) (hasRM visible : Bool)
    (h : (dictKeys reg.job_queue).contains word = true ∨
         reg.failed_words.contains word = true) :
    create_job reg word hasRM visible = (false, reg) := by
  unfold create_job
  rw [if_neg]
  rcases h with h | h
  · intro hc
    exact hc.1 (by simpa using h)
  · intro hc
    exact hc.2 (by simpa using h)

/-- C5: `create_job` on a word already present in the registry or in the
exclusion set returns failure and leaves the whole registry (job map,
image-fetch queue, voice-preload queue, exclusion set) unchanged, so no
duplicate entry and no fetch request is ever created for such a word. -/
theorem create_job_idempotent (reg : Registry) (word : String) (hasRM visible : Bool)
    (h : (dictKeys reg.job_queue).contains word = true ∨
         reg.failed_words.contains word = true) :
    create_job reg word hasRM visible = (false, reg) :=
  create_job_noop reg word hasRM visible h

def regEmpty : Registry :=
  { job_queue := [], download_queue := [], voice_queue := [], failed_words := [] }

def regCat : Registry := (create_job regEmpty "cat" true true).2

/-- Witness for C5: creating "cat" twice in a row makes the second call
report failure and leaves exactly one "cat" job in the registry. -/
theorem create_job_idempotent_witness :
    (create_job regEmpty "cat" true true).1 = true ∧
    create_job regCat "cat" true true = (false, regCat) ∧
    (regCat.job_queue.filter (fun p => p.1 == "cat")).length = 1 :=
  ⟨by decide,
   create_job_idempotent regCat "cat" true true (Or.inl (by decide)),
   by decide⟩

/-! ## C9 — failure flags are sticky -/

/-- C9: once a job's `image_failed` or `audio_failed` flag is set, none
of `mark_image_ready`, `mark_audio_ready`, `mark_audio_failed` clears
it, and the job's `is_complete` stays false; in particular a later
`mark_image_ready` with a real payload still stores the payload and
sets `image_ready` but returns `False`. -/
theorem failed_flags_sticky (reg : Registry) (w : String) (j : DownloadJob) (d : Drawing)
    (hget : dictGet reg.job_queue w = some j) (hfail : j.has_failed = true) :
    (mark_image_ready reg w (some d)).1 = false ∧
    dictGet (mark_image_ready reg w (some d)).2.job_queue w
      = some { j with image_ready := true, image_data := some d } ∧
    DownloadJob.has_failed { j with image_ready := true, image_data := some d } = true ∧
    DownloadJob.is_complete { j with image_ready := true, image_data := some d } = false ∧
    (mark_audio_ready reg w).1 = false ∧
    dictGet (mark_audio_ready reg w).2.job_queue w = some { j with audio_ready := true } ∧
    DownloadJob.has_failed { j with audio_ready := true } = true ∧
    DownloadJob.is_complete { j with audio_ready := true } = false ∧
    (mark_audio_failed reg w).1 = false ∧
    dictGet (mark_audio_failed reg w).2.job_queue w = some { j with audio_failed := true } ∧
    DownloadJob.is_complete { j with audio_failed := true } = false := by
  have hfail' : j.image_failed = true ∨ j.audio_failed = true := by
    unfold DownloadJob.has_failed at hfail
    rcases Bool.or_eq_true_iff.mp hfail with h | h
    · exact Or.inl h
    · exact Or.inr h
  have hcomp : ∀ k : DownloadJob, k.image_failed = j.image_failed →
      k.audio_failed = j.audio_failed → k.is_complete = false := by
    intro k h1 h2
    unfold DownloadJob.is_complete
    rcases hfail' with h | h
    · rw [h1, h]
      simp
    · rw [h2, h]
      simp
  refine ⟨?_, ?_, ?_, ?_, ?_, ?_, ?_, ?_, ?_, ?_, ?_⟩
  · unfold mark_image_ready
    rw [hget]
    simp only
    exact hcomp _ rfl rfl
  · unfold mark_image_ready
    rw [hget]
    simp only
    exact dictGet_dictSet _ _ _
  · unfold DownloadJob.has_failed at *
    exact hfail
  · exact hcomp _ rfl rfl
  · unfold mark_audio_ready
    rw [hget]
    simp only
    exact hcomp _ rfl rfl
  · unfold mark_audio_ready
    rw [hget]
    simp only
    exact dictGet_dictSet _ _ _
  · unfold DownloadJob.has_failed at *
    exact hfail
  · exact hcomp _ rfl rfl
  · unfold mark_audio_failed
    rw [hget]
  · unfold mark_audio_failed
    rw [hget]
    simp only
    exact dictGet_dictSet _ _ _
  · unfold DownloadJob.is_complete
    simp

def regFailedDog : Registry :=
  { job_queue := [("dog", { word := "dog", image_failed := true })],
    download_queue := [], voice_queue := [], failed_words := [] }

/-- Witness for C9 at a concrete registry holding a failed "dog" job. -/
theorem failed_flags_sticky_witness :
    (mark_image_ready regFailedDog "dog"
        (some { recognized := true, strokes := [] })).1 = false ∧
    dictGet (mark_image_ready regFailedDog "dog"
        (some { recognized := true, strokes := [] })).2.job_queue "dog"
      = some { word := "dog", image_ready := true,
               image_data := some { recognized := true, strokes := [] },
               image_failed := true } := by
  have h := failed_flags_sticky regFailedDog "dog"
    { word := "dog", image_failed := true } { recognized := true, strokes := [] }
    (by decide) (by decide)
  exact ⟨h.1, h.2.1⟩

/-! ## C6 — a fetch failure is terminal per word -/

theorem dictGet_mem (q : JobDict) (w : String) (j : DownloadJob)
    (h : dictGet q w = some j) : (w, j) ∈ q := by
  unfold dictGet at h
  cases hf : q.find? (fun p => p.1 == w) with
  | none => rw [hf] at h; simp at h
  | some e =>
    rw [hf] at h
    simp only [Option.map] at h
    rw [Option.some.injEq] at h
    have he := List.mem_of_find?_eq_some hf
    have hk : e.1 = w := by simpa using List.find?_some hf
    have : e = (w, j) := by
      cases e
      simp_all
    rw [← this]
    exact he

theorem keys_filter_out (q : JobDict) (w : String)
    (hall : ∀ p ∈ q, p.1 = w → p.2.has_failed = true) :
    w ∉ dictKeys (q.filter (fun p => !p.2.has_failed)) := by
  intro hmem
  rcases List.mem_map.mp hmem with ⟨p, hpmem, hpk⟩
  have h1 := List.of_mem_filter hpmem
  have h2 := List.mem_of_mem_filter hpmem
  have := hall p h2 hpk
  simp_all

theorem create_job_key_out (reg : Registry) (u w : String) (h v : Bool)
    (hw : w ∈ reg.failed_words) (hk : w ∉ dictKeys reg.job_queue) :
    w ∉ dictKeys (create_job reg u h v).2.job_queue ∧
    w ∈ (create_job reg u h v).2.failed_words := by
  unfold create_job
  split
  · next hcond =>
    refine ⟨?_, hw⟩
    intro hmem
    simp only [dictKeys, List.map_append, List.map_cons, List.map_nil] at hmem
    rcases List.mem_append.mp hmem with hmem | hmem
    · exact hk hmem
    · have hu : w = u := by simpa using hmem
      subst hu
      exact hcond.2 (List.elem_eq_true_of_mem hw)
  · exact ⟨hk, hw⟩

theorem replaceLoop_key_out (h v : Bool) (o : Nat → String) (w : String) :
    ∀ (fuel att : Nat) (reg : Registry), w ∈ reg.failed_words →
      w ∉ dictKeys reg.job_queue →
      w ∉ dictKeys (replaceLoop h v o fuel att reg).job_queue := by
  intro fuel
  induction fuel with
  | zero => intro _ _ hw hk; exact hk
  | succ n ih =>
    intro att reg hw hk
    simp only [replaceLoop]
    rcases create_job_key_out reg (o att) w h v hw hk with ⟨hk', hw'⟩
    by_cases hc : (create_job reg (o att) h v).1 = true
    · rw [if_pos hc]
      exact hk'
    · rw [if_neg hc]
      exact ih (att + 1) _ hw' hk'

theorem replaceAll_key_out (h : Bool) (o : Nat → Nat → String) (w : String) :
    ∀ (l : List DownloadJob) (i : Nat) (reg : Registry), w ∈ reg.failed_words →
      w ∉ dictKeys reg.job_queue →
      w ∉ dictKeys (replaceAll h o i l reg).job_queue := by
  intro l
  induction l with
  | nil => intro _ _ _ hk; exact hk
  | cons fj rest ih =>
    intro i reg hw hk
    unfold replaceAll
    have hw' : w ∈ (replaceLoop h fj.visible (o i) 10 0 reg).failed_words := by
      rw [replaceLoop_failed_words]
      exact hw
    exact ih (i + 1) _ hw' (replaceLoop_key_out h fj.visible (o i) w 10 0 reg hw hk)

theorem replaceLoop_all_excluded (h v : Bool) (w : String) :
    ∀ (fuel att : Nat) (reg : Registry), w ∈ reg.failed_words →
      replaceLoop h v (fun _ => w) fuel att reg = reg := by
  intro fuel
  induction fuel with
  | zero => intro _ _ _; rfl
  | succ n ih =>
    intro att reg hw
    simp only [replaceLoop]
    have hcr := create_job_noop reg w h v (Or.inr (List.elem_eq_true_of_mem hw))
    rw [hcr]
    simpa using ih (att + 1) reg hw

theorem replaceAll_all_excluded (h : Bool) (w : String) :
    ∀ (l : List DownloadJob) (i : Nat) (reg : Registry), w ∈ reg.failed_words →
      replaceAll h (fun _ _ => w) i l reg = reg := by
  intro l
  induction l with
  | nil => intro _ _ _; rfl
  | cons fj rest ih =>
    intro i reg hw
    unfold replaceAll
    rw [replaceLoop_all_excluded h fj.visible w 10 0 reg hw]
    exact ih (i + 1) reg hw

/-- A registry operation invoked during a run, after initialization. -/
inductive RegOp where
  | create (w : String) (hasRM vis : Bool)
  | markImage (w : String) (d : Option Drawing)
  | markAudio (w : String)
  | markAudioFailed (w : String)
  | takeCompleted (visible_only : Bool)
  | takeBackup
  | clean (hasRM : Bool) (oracle : Nat → Nat → String)

/-- The registry after one operation. -/
def applyOp (reg : Registry) : RegOp → Registry
  | .create w h v => (create_job reg w h v).2
  | .markImage w d => (mark_image_ready reg w d).2
  | .markAudio w => (mark_audio_ready reg w).2
  | .markAudioFailed w => (mark_audio_failed reg w).2
  | .takeCompleted v => (get_completed_jobs reg v).2
  | .takeBackup => (get_backup_job reg).2
  | .clean h o => clean_failed_jobs reg h o

/-- The registry after a sequence of operations. -/
def applyOps (reg : Registry) (ops : List RegOp) : Registry := ops.foldl applyOp reg

theorem mark_image_ready_failed_words (reg : Registry) (w : String) (d : Option Drawing) :
    (mark_image_ready reg w d).2.failed_words = reg.failed_words := by
  unfold mark_image_ready
  cases hg : dictGet reg.job_queue w with
  | none => rfl
  | some j => cases d <;> rfl

theorem mark_audio_ready_failed_words (reg : Registry) (w : String) :
    (mark_audio_ready reg w).2.failed_words = reg.failed_words := by
  unfold mark_audio_ready
  cases hg : dictGet reg.job_queue w with
  | none => rfl
  | some j => rfl

theorem mark_audio_failed_failed_words (reg : Registry) (w : String) :
    (mark_audio_failed reg w).2.failed_words = reg.failed_words := by
  unfold mark_audio_failed
  cases hg : dictGet reg.job_queue w with
  | none => rfl
  | some j => rfl

theorem get_backup_job_failed_words (reg : Registry) :
    (get_backup_job reg).2.failed_words = reg.failed_words := by
  unfold get_backup_job
  cases hg : reg.job_queue.find? (fun p => p.2.is_complete && !p.2.visible) with
  | none => rfl
  | some p => rfl

/-- `failed_words` is monotone under every registry operation: no
operation ever removes a word from the exclusion set. -/
theorem applyOp_failed_mono (reg : Registry) (op : RegOp) (w : String)
    (h : w ∈ reg.failed_words) : w ∈ (applyOp reg op).failed_words := by
  cases op with
  | create u hR v => rw [applyOp, create_job_failed_words]; exact h
  | markImage u d => rw [applyOp, mark_image_ready_failed_words]; exact h
  | markAudio u => rw [applyOp, mark_audio_ready_failed_words]; exact h
  | markAudioFailed u => rw [applyOp, mark_audio_failed_failed_words]; exact h
  | takeCompleted v => exact h
  | takeBackup => rw [applyOp, get_backup_job_failed_words]; exact h
  | clean hR o => exact clean_failed_words_mono reg hR o w h

theorem applyOps_failed_mono (w : String) :
    ∀ (ops : List RegOp) (reg : Registry), w ∈ reg.failed_words →
      w ∈ (applyOps reg ops).failed_words := by
  intro ops
  induction ops with
  | nil => intro _ h; exact h
  | cons op rest ih =>
    intro reg h
    exact ih _ (applyOp_failed_mono reg op w h)

/-- C6: an image-fetch failure is terminal for its word.
`mark_image_ready(word, None)` sets the job's `image_failed` flag; the
next `clean_failed_jobs` removes the job from the queue, puts the word
into the permanent exclusion set, and attempts its bounded random
replacements in a way that gives up silently when every random draw is
ineligible (shown for the draw that always returns the excluded word
itself); and after any further sequence of registry operations,
`create_job` for that word still fails and changes nothing. -/
theorem fetch_failure_terminal (reg : Registry) (w : String) (j : DownloadJob)
    (hasRM : Bool) (oracle : Nat → Nat → String)
    (hget : dictGet reg.job_queue w = some j)
    (r1 : Registry) (hr1 : r1 = (mark_image_ready reg w none).2)
    (r2 : Registry) (hr2 : r2 = clean_failed_jobs r1 hasRM oracle) :
    (mark_image_ready reg w none).1 = false ∧
    dictGet r1.job_queue w = some { j with image_failed := true } ∧
    w ∉ dictKeys r2.job_queue ∧
    w ∈ r2.failed_words ∧
    (∀ (ops : List RegOp) (hR vis : Bool),
       create_job (applyOps r2 ops) w hR vis = (false, applyOps r2 ops)) ∧
    (clean_failed_jobs r1 hasRM (fun _ _ => w)).job_queue
      = r1.job_queue.filter (fun p => !p.2.has_failed) := by
  have hq1 : r1.job_queue = dictSet reg.job_queue w { j with image_failed := true } := by
    rw [hr1]
    unfold mark_image_ready
    rw [hget]
  have hall : ∀ p ∈ r1.job_queue, p.1 = w → p.2.has_failed = true := by
    intro p hp hk
    rw [hq1] at hp
    have := dictSet_key_unique reg.job_queue w { j with image_failed := true } p hp hk
    rw [this]
    unfold DownloadJob.has_failed
    simp
  have hgetr1 : dictGet r1.job_queue w = some { j with image_failed := true } := by
    rw [hq1]
    exact dictGet_dictSet _ _ _
  have hkey2 : w ∉ dictKeys r2.job_queue ∧ w ∈ r2.failed_words := by
    rw [hr2]
    unfold clean_failed_jobs
    have hmemf : (w, { j with image_failed := true }) ∈
        r1.job_queue.filter (fun p => p.2.has_failed) := by
      refine List.mem_filter.mpr ⟨dictGet_mem _ _ _ hgetr1, ?_⟩
      unfold DownloadJob.has_failed
      simp
    have hfw : w ∈ (r1.job_queue.filter (fun p => p.2.has_failed)).foldl
        (fun s p => setAdd s p.1) r1.failed_words :=
      mem_foldl_setAdd_of_key w _ _ _ hmemf
    have hko : w ∉ dictKeys (r1.job_queue.filter (fun p => !p.2.has_failed)) :=
      keys_filter_out r1.job_queue w hall
    constructor
    · exact replaceAll_key_out hasRM oracle w _ 0 _ hfw hko
    · rw [replaceAll_failed_words]
      exact hfw
  refine ⟨?_, hgetr1, hkey2.1, hkey2.2, ?_, ?_⟩
  · unfold mark_image_ready
    rw [hget]
  · intro ops hR vis
    have hmem : w ∈ (applyOps r2 ops).failed_words :=
      applyOps_failed_mono w ops r2 hkey2.2
    exact create_job_noop _ w hR vis (Or.inr (List.elem_eq_true_of_mem hmem))
  · unfold clean_failed_jobs
    have hmemf2 : (w, { j with image_failed := true }) ∈
        r1.job_queue.filter (fun p => p.2.has_failed) := by
      refine List.mem_filter.mpr ⟨dictGet_mem _ _ _ hgetr1, ?_⟩
      unfold DownloadJob.has_failed
      simp
    have hfw : w ∈ (r1.job_queue.filter (fun p => p.2.has_failed)).foldl
        (fun s p => setAdd s p.1) r1.failed_words :=
      mem_foldl_setAdd_of_key w _ _ _ hmemf2
    rw [replaceAll_all_excluded hasRM w _ 0 _ hfw]

def regPendingDog : Registry :=
  { job_queue := [("dog", { word := "dog" })],
    download_queue := ["dog"], voice_queue := ["dog"], failed_words := [] }

/-- Witness for C6: concrete "dog" scenario — the job fails, is purged
into the exclusion set, and a later `create_job("dog")` after another
operation still fails. -/
theorem fetch_failure_terminal_witness :
    dictGet regPendingDog.job_queue "dog" = some { word := "dog" } ∧
    "dog" ∉ dictKeys (clean_failed_jobs (mark_image_ready regPendingDog "dog" none).2
        true (fun _ _ => "cat")).job_queue ∧
    create_job
        (applyOps (clean_failed_jobs (mark_image_ready regPendingDog "dog" none).2
          true (fun _ _ => "cat")) [RegOp.create "cat" true true])
        "dog" true true
      = (false, applyOps (clean_failed_jobs (mark_image_ready regPendingDog "dog" none).2
          true (fun _ _ => "cat")) [RegOp.create "cat" true true]) := by
  have h := fetch_failure_terminal regPendingDog "dog" { word := "dog" } true
    (fun _ _ => "cat") (by decide) _ rfl _ rfl
  exact ⟨by decide, h.2.2.1, h.2.2.2.2.1 [RegOp.create "cat" true true] true true⟩

/-! ## Renderer lemmas and claims C2, C3, C7, C8 -/

theorem drawLoop_short (c w : Nat) (mx my : Int) (sc : ℚ) (b : Int) :
    ∀ (l : List RawStroke) (used : Int), (∀ s ∈ l, (decode_stroke s).length < 2) →
      drawLoop c w mx my sc b l used = [] := by
  intro l
  induction l with
  | nil => intro _ _; rfl
  | cons s rest ih =>
    intro used h
    simp only [drawLoop, if_pos (h s (List.mem_cons_self s rest))]
    exact ih used fun t ht => h t (List.mem_cons_of_mem s ht)

theorem specStraddleCmds_cons (c w : Nat) (mx my : Int) (sc : ℚ) (b : Int)
    (s : RawStroke) (rest : List RawStroke) (used : Int) :
    specStraddleCmds c w mx my sc b (s :: rest) used =
      if (decode_stroke s).length < 2 then specStraddleCmds c w mx my sc b rest used
      else if used + (decode_stroke s).length ≤ b then
        specStraddleCmds c w mx my sc b rest (used + (decode_stroke s).length)
      else if used < b then
        if 2 ≤ b - used then
          [DrawCmd.lines ((scaleStroke mx my sc w (decode_stroke s)).take (b - used).toNat) w c]
        else []
      else [] := by
  by_cases h1 : (decode_stroke s).length < 2
  · simp only [specStraddleCmds, specStraddle, if_pos h1]
  · by_cases h2 : used + (decode_stroke s).length ≤ b
    · simp only [specStraddleCmds, specStraddle, if_neg h1, if_pos h2]
    · by_cases h3 : used < b
      · simp only [specStraddleCmds, specStraddle, if_neg h1, if_neg h2, if_pos h3]
      · simp only [specStraddleCmds, specStraddle, if_neg h1, if_neg h2, if_neg h3]

/-- The source loop `drawLoop` coincides with the spec's description:
the fully-drawn strokes in order, then the straddling stroke truncated
to its remaining-budget allowance when that allowance is at least 2. -/
theorem drawLoop_eq_spec (c w : Nat) (mx my : Int) (sc : ℚ) (b : Int) :
    ∀ (l : List RawStroke) (used : Int),
      drawLoop c w mx my sc b l used =
        (specFullStrokes b l used).map
          (fun s => DrawCmd.lines (scaleStroke mx my sc w (decode_stroke s)) w c)
        ++ specStraddleCmds c w mx my sc b l used := by
  intro l
  induction l with
  | nil => intro used; rfl
  | cons s rest ih =>
    intro used
    rw [specStraddleCmds_cons]
    by_cases h1 : (decode_stroke s).length < 2
    · simp only [drawLoop, specFullStrokes, if_pos h1]
      exact ih used
    · by_cases h2 : used + (decode_stroke s).length ≤ b
      · simp only [drawLoop, specFullStrokes, if_neg h1, if_pos h2, List.map_cons,
          List.cons_append]
        rw [ih]
      · by_cases h3 : used < b
        · simp only [drawLoop, specFullStrokes, if_neg h1, if_neg h2, if_pos h3,
            List.map_nil, List.nil_append]
        · simp only [drawLoop, specFullStrokes, if_neg h1, if_neg h2, if_neg h3,
            List.map_nil, List.nil_append]

/-- C2 counterexample: `[[[5,5]]]` is non-empty degenerate input (its
only stroke decodes to a single point), yet `render` yields a blank
14×14 canvas with no draw call — not the outlined 10×10 square of the
requested size that the claim requires. -/
theorem render_placeholder_counterexample :
    (∀ s ∈ ([[[5,5]]] : List RawStroke), (decode_stroke s).length < 2) ∧
    render [[[5,5]]] 10 0 2 1 = { w := 14, h := 14, cmds := [] } ∧
    render [[[5,5]]] 10 0 2 1 ≠ { w := 10, h := 10, cmds := [DrawCmd.rect 0 0 10 10 2 0] } := by
  have hr : render [[[5,5]]] 10 0 2 1 = { w := 14, h := 14, cmds := [] } := by
    simp only [render]
    rw [if_neg (by decide)]
    rw [show get_bounds [[[5,5]]] = (5, 5, 1, 1) from by decide]
    simp only [drawLoop, show decode_stroke [[5,5]] = [(5,5)] from by decide,
      points_to_draw, total_points]
    norm_num [pyInt]
  exact ⟨by decide, hr, by rw [hr]; decide⟩

/-- C2 (amended): an empty stroke list renders as the outlined square
of the requested size; a non-empty stroke list in which every stroke
decodes to fewer than 2 usable points renders no draw call at all (a
blank canvas sized from the clamped bounding box, with no outline).
In both cases `render` is total — no error is raised. -/
theorem render_degenerate (strokes : List RawStroke) (size color width : Nat) (p : ℚ) :
    (strokes = [] →
      render strokes size color width p
        = { w := size, h := size, cmds := [DrawCmd.rect 0 0 size size width color] }) ∧
    (strokes ≠ [] → (∀ s ∈ strokes, (decode_stroke s).length < 2) →
      (render strokes size color width p).cmds = []) := by
  constructor
  · intro h
    subst h
    simp [render]
  · intro hne hall
    simp only [render, if_neg hne]
    exact drawLoop_short _ _ _ _ _ _ strokes 0 hall

/-- Witness for C2 (amended) at concrete inputs. -/
theorem render_degenerate_witness :
    render [] 10 0 2 1 = { w := 10, h := 10, cmds := [DrawCmd.rect 0 0 10 10 2 0] } ∧
    (render [[[5,5]]] 10 0 2 1).cmds = [] :=
  ⟨(render_degenerate [] 10 0 2 1).1 rfl,
   (render_degenerate [[[5,5]]] 10 0 2 1).2 (by decide) (by decide)⟩

/-- C3 counterexample: in `[[[0,0]], [[0,0],[1,0],[2,0]]]` at progress
3/4 the budget is 3; under the claim's accounting the one-point first
stroke is "fully within the budget" and is drawn whole consuming 1
point, leaving 2 for the straddling second stroke, which should then be
drawn with only its first 2 points.  The code instead skips the
one-point stroke entirely (consuming no budget) and draws the second
stroke whole, with all 3 points. -/
theorem render_budget_counterexample :
    total_points [[[0,0]], [[0,0],[1,0],[2,0]]] = 4 ∧
    points_to_draw [[[0,0]], [[0,0],[1,0],[2,0]]] (3/4) = 3 ∧
    (render [[[0,0]], [[0,0],[1,0],[2,0]]] 4 0 1 (3/4)).cmds
      = [DrawCmd.lines [(1,1),(3,1),(5,1)] 1 0] ∧
    DrawCmd.lines [(1,1),(3,1)] 1 0 ∉
      (render [[[0,0]], [[0,0],[1,0],[2,0]]] 4 0 1 (3/4)).cmds := by
  have hpt : points_to_draw [[[0,0]], [[0,0],[1,0],[2,0]]] (3/4) = 3 := by
    simp only [points_to_draw, total_points, List.map_cons, List.map_nil,
      show decode_stroke [[0,0]] = [(0,0)] from by decide,
      show decode_stroke [[0,0],[1,0],[2,0]] = [(0,0),(1,0),(2,0)] from by decide]
    norm_num [pyInt]
  have hr : (render [[[0,0]], [[0,0],[1,0],[2,0]]] 4 0 1 (3/4)).cmds
      = [DrawCmd.lines [(1,1),(3,1),(5,1)] 1 0] := by
    simp only [render]
    rw [if_neg (by decide)]
    rw [show get_bounds [[[0,0]], [[0,0],[1,0],[2,0]]] = (0, 0, 2, 1) from by decide]
    rw [hpt]
    simp only [drawLoop, scaleStroke,
      show decode_stroke [[0,0]] = [(0,0)] from by decide,
      show decode_stroke [[0,0],[1,0],[2,0]] = [(0,0),(1,0),(2,0)] from by decide]
    norm_num
  refine ⟨by decide, hpt, hr, ?_⟩
  rw [hr]
  intro hmem
  rcases List.mem_singleton.mp hmem with h
  have := congrArg (fun c => match c with | DrawCmd.lines pts _ _ => pts.length | _ => 0) h
  simp at this

/-- C3 (amended): for non-empty strokes and progress `p ≥ 0`, the point
budget is `⌊p × total decoded point count⌋`, and the draw calls of
`render` are exactly: the strokes fully within the running budget drawn
whole in original order, then the straddling stroke drawn with its
first `k` points when `k ≥ 2` (nothing when `k < 2`), and nothing
beyond — where strokes that decode to fewer than 2 points are skipped
entirely, consuming no budget (they are counted in the total but never
drawn). -/
theorem render_budget_rule (strokes : List RawStroke) (size color width : Nat) (p : ℚ)
    (hne : strokes ≠ []) (hp : 0 ≤ p) :
    points_to_draw strokes p = ⌊(total_points strokes : ℚ) * p⌋ ∧
    (render strokes size color width p).cmds =
      specCmds color width (get_bounds strokes).1 (get_bounds strokes).2.1
        ((size : ℚ) / (((max (get_bounds strokes).2.2.1 (get_bounds strokes).2.2.2) : Int) : ℚ))
        (points_to_draw strokes p) strokes := by
  constructor
  · unfold points_to_draw pyInt
    rw [if_pos (mul_nonneg (Nat.cast_nonneg _) hp)]
  · simp only [render, if_neg hne]
    unfold specCmds
    exact drawLoop_eq_spec _ _ _ _ _ _ strokes 0

def sAStrokes : List RawStroke := [[[0,0],[1,0],[2,0]], [[0,1],[1,1]]]

/-- Witness for C3 (amended), which is also Scenario A of the spec: two
strokes of 3 and 2 points at progress 0.5 give budget 2; the first
stroke is drawn with only its first 2 points and the second stroke is
not drawn at all. -/
theorem render_budget_rule_witness :
    sAStrokes ≠ [] ∧
    (render sAStrokes 4 0 1 (1/2)).cmds =
      specCmds 0 1 (get_bounds sAStrokes).1 (get_bounds sAStrokes).2.1
        ((4 : ℚ) / (((max (get_bounds sAStrokes).2.2.1 (get_bounds sAStrokes).2.2.2) : Int) : ℚ))
        (points_to_draw sAStrokes (1/2)) sAStrokes ∧
    points_to_draw sAStrokes (1/2) = 2 ∧
    (render sAStrokes 4 0 1 (1/2)).cmds = [DrawCmd.lines [(1,1),(3,1)] 1 0] := by
  have hpt : points_to_draw sAStrokes (1/2) = 2 := by
    simp only [points_to_draw, total_points, sAStrokes, List.map_cons, List.map_nil,
      show decode_stroke [[0,0],[1,0],[2,0]] = [(0,0),(1,0),(2,0)] from by decide,
      show decode_stroke [[0,1],[1,1]] = [(0,1),(1,1)] from by decide]
    norm_num [pyInt]
  have hr : (render sAStrokes 4 0 1 (1/2)).cmds = [DrawCmd.lines [(1,1),(3,1)] 1 0] := by
    simp only [render, sAStrokes]
    rw [if_neg (by decide)]
    rw [show get_bounds [[[0,0],[1,0],[2,0]], [[0,1],[1,1]]] = (0, 0, 2, 1) from by decide]
    rw [show points_to_draw [[[0,0],[1,0],[2,0]], [[0,1],[1,1]]] (1/2) = 2 from by
      simpa [sAStrokes] using hpt]
    simp only [drawLoop, scaleStroke,
      show decode_stroke [[0,0],[1,0],[2,0]] = [(0,0),(1,0),(2,0)] from by decide,
      show decode_stroke [[0,1],[1,1]] = [(0,1),(1,1)] from by decide]
    norm_num [List.take, show ((2:Int) - 0).toNat = 2 from rfl]
  exact ⟨by decide,
    (render_budget_rule sAStrokes 4 0 1 (1/2) (by decide) (by norm_num)).2, hpt, hr⟩

theorem pyInt_mono (q1 q2 : ℚ) (h0 : 0 ≤ q1) (h : q1 ≤ q2) : pyInt q1 ≤ pyInt q2 := by
  unfold pyInt
  rw [if_pos h0, if_pos (le_trans h0 h)]
  exact Int.floor_le_floor h

theorem specFullStrokes_mono (b1 b2 : Int) (hb : b1 ≤ b2) :
    ∀ (l : List RawStroke) (used : Int) (s : RawStroke),
      s ∈ specFullStrokes b1 l used → s ∈ specFullStrokes b2 l used := by
  intro l
  induction l with
  | nil => intro _ _ h; simp [specFullStrokes] at h
  | cons t rest ih =>
    intro used s h
    by_cases h1 : (decode_stroke t).length < 2
    · simp only [specFullStrokes, if_pos h1] at h ⊢
      exact ih used s h
    · by_cases h2 : used + (decode_stroke t).length ≤ b1
      · have h2' : used + (decode_stroke t).length ≤ b2 := le_trans h2 hb
        simp only [specFullStrokes, if_neg h1, if_pos h2, if_pos h2'] at h ⊢
        rcases List.mem_cons.mp h with h | h
        · exact List.mem_cons.mpr (Or.inl h)
        · exact List.mem_cons.mpr (Or.inr (ih _ s h))
      · simp only [specFullStrokes, if_neg h1, if_neg h2] at h
        simp at h

/-- C7: for `0 ≤ p1 < p2` the point budget at `p1` is at most the
budget at `p2`, and every stroke drawn in full at `p1` is drawn in full
at `p2` (the fully-drawn strokes are those of `specFullStrokes`, which
by `drawLoop_eq_spec` are exactly the strokes `render` draws whole). -/
theorem render_monotone (strokes : List RawStroke) (p1 p2 : ℚ)
    (h0 : 0 ≤ p1) (h12 : p1 < p2) :
    points_to_draw strokes p1 ≤ points_to_draw strokes p2 ∧
    ∀ s ∈ specFullStrokes (points_to_draw strokes p1) strokes 0,
      s ∈ specFullStrokes (points_to_draw strokes p2) strokes 0 := by
  have hb : points_to_draw strokes p1 ≤ points_to_draw strokes p2 := by
    unfold points_to_draw
    apply pyInt_mono
    · exact mul_nonneg (Nat.cast_nonneg _) h0
    · exact mul_le_mul_of_nonneg_left (le_of_lt h12) (Nat.cast_nonneg _)
  exact ⟨hb, fun s hs => specFullStrokes_mono _ _ hb strokes 0 s hs⟩

/-- Witness for C7 at Scenario A's drawing with `p1 = 1/4 < p2 = 1/2`. -/
theorem render_monotone_witness :
    points_to_draw sAStrokes (1/4) ≤ points_to_draw sAStrokes (1/2) :=
  (render_monotone sAStrokes (1/4) (1/2) (by norm_num) (by norm_num)).1

/-- C8: `render` is a pure function of its arguments (determinism in
the embedding), and the bounding box, scale and canvas size are
computed from all points of all strokes regardless of progress: the
canvas dimensions at any progress equal those of the full render.  In
particular `get_bounds` takes no progress argument at all. -/
theorem render_progress_invariant (strokes : List RawStroke) (size color width : Nat)
    (p : ℚ) :
    (render strokes size color width p).w = (render strokes size color width 1).w ∧
    (render strokes size color width p).h = (render strokes size color width 1).h := by
  by_cases h : strokes = [] <;> simp [render, h]

/-! ## Main-loop claims C1, C10, C4 -/

def demoDrawing : Drawing := { recognized := true, strokes := [[[0,0],[1,1]]] }

def fullItems : List Item :=
  [{ word := "a", drawing := some demoDrawing },
   { word := "b", drawing := some demoDrawing },
   { word := "c", drawing := some demoDrawing },
   { word := "d", drawing := some demoDrawing },
   { word := "e", drawing := some demoDrawing }]

def stC1 : GameState :=
  { reg := { job_queue := [("bk", { word := "bk", visible := false })],
             download_queue := [], voice_queue := [], failed_words := [] },
    items := fullItems, rects := [(), (), (), (), ()],
    loaded_words := ["a", "b", "c", "d", "e"], buf := "",
    flash := none, running := true, hasRM := true }

def jobC1 : DownloadJob :=
  { word := "cat", image_ready := true, audio_ready := true,
    image_data := some demoDrawing, visible := true }

/-- C1 counterexample: with 5 items on screen and one backup job
already in the registry, a popped completed visible job ("cat") is
dropped entirely — the loop body leaves the state unchanged, so the job
is not re-inserted as a backup.  The claim's "regardless of how many
backup jobs already exist" fails: conversion happens only when
`get_backup_job_count() == 0`. -/
theorem backup_conversion_counterexample :
    5 ≤ stC1.items.length ∧ jobC1.is_complete = true ∧ jobC1.visible = true ∧
    1 ≤ get_backup_job_count stC1.reg ∧
    (processJob stC1 jobC1).1 = stC1 ∧
    "cat" ∉ dictKeys (processJob stC1 jobC1).1.reg.job_queue := by
  refine ⟨by decide, by decide, by decide, by decide, by decide, by decide⟩

/-- C1 (amended): when a completed visible job is popped while 5 items
are already on screen, it is converted to a backup job (re-inserted
with `visible := false`) only if the registry currently holds no backup
job at all; if at least one backup job exists, the popped job is
discarded and the state is unchanged. -/
theorem backup_conversion (st : GameState) (job : DownloadJob)
    (h5 : 5 ≤ st.items.length) :
    (get_backup_job_count st.reg = 0 →
      processJob st job =
        ({ st with reg := { st.reg with
            job_queue := dictSet st.reg.job_queue job.word { job with visible := false } } },
         false)) ∧
    (0 < get_backup_job_count st.reg → processJob st job = (st, false)) := by
  have hlt : ¬ st.items.length < 5 := by omega
  constructor
  · intro h0
    unfold processJob
    rw [if_neg (by intro hc; exact hlt hc.2), if_pos h5, if_pos h0]
  · intro hpos
    unfold processJob
    rw [if_neg (by intro hc; exact hlt hc.2), if_pos h5, if_neg (by omega)]

/-- Witness for C1 (amended): both branches at concrete states. -/
theorem backup_conversion_witness :
    5 ≤ stC1.items.length ∧ processJob stC1 jobC1 = (stC1, false) := by
  refine ⟨by decide, (backup_conversion stC1 jobC1 (by decide)).2 (by decide)⟩

theorem dictPop_keys_subset (q : JobDict) (u w : String)
    (h : w ∈ dictKeys (dictPop q u)) : w ∈ dictKeys q := by
  unfold dictPop dictKeys at *
  rcases List.mem_map.mp h with ⟨p, hp, hk⟩
  exact List.mem_map.mpr ⟨p, List.mem_of_mem_filter hp, hk⟩

theorem not_mem_keys_dictPop (q : JobDict) (w : String) :
    w ∉ dictKeys (dictPop q w) := by
  intro h
  rcases List.mem_map.mp h with ⟨p, hp, hk⟩
  have hne := List.of_mem_filter hp
  simp only [bne_iff_ne] at hne
  exact hne hk

theorem dictGet_none_not_mem (q : JobDict) (w : String)
    (h : dictGet q w = none) : w ∉ dictKeys q := by
  intro hmem
  rcases List.mem_map.mp hmem with ⟨p, hp, hk⟩
  unfold dictGet at h
  cases hf : q.find? (fun p => p.1 == w) with
  | some e => rw [hf] at h; simp at h
  | none =>
    have := List.find?_eq_none.mp hf p hp
    simp [hk] at this

theorem popWords_keys_subset : ∀ (ws : List String) (q : JobDict) (w : String),
    w ∈ dictKeys (popWords ws q).2 → w ∈ dictKeys q := by
  intro ws
  induction ws with
  | nil => intro q w h; exact h
  | cons u us ih =>
    intro q w h
    unfold popWords at h
    cases hg : dictGet q u with
    | some j =>
      rw [hg] at h
      exact dictPop_keys_subset q u w (ih (dictPop q u) w h)
    | none =>
      rw [hg] at h
      exact ih q w h

theorem popWords_key_out : ∀ (ws : List String) (q : JobDict) (w : String),
    w ∈ ws → w ∉ dictKeys (popWords ws q).2 := by
  intro ws
  induction ws with
  | nil => intro q w h; simp at h
  | cons u us ih =>
    intro q w hmem
    unfold popWords
    cases hg : dictGet q u with
    | some j =>
      show w ∉ dictKeys (popWords us (dictPop q u)).2
      rcases List.mem_cons.mp hmem with heq | hmem'
      · subst heq
        intro hcon
        exact not_mem_keys_dictPop q w (popWords_keys_subset us (dictPop q w) w hcon)
      · exact ih (dictPop q u) w hmem'
    | none =>
      show w ∉ dictKeys (popWords us q).2
      rcases List.mem_cons.mp hmem with heq | hmem'
      · subst heq
        intro hcon
        exact dictGet_none_not_mem q w hg (popWords_keys_subset us q w hcon)
      · exact ih q w hmem'

def stC10 : GameState :=
  { reg := { job_queue := [], download_queue := [], voice_queue := [], failed_words := [] },
    items := [{ word := "a", drawing := some demoDrawing }], rects := [()],
    loaded_words := ["a", "cat"], buf := "",
    flash := none, running := true, hasRM := true }

/-- C10: a word recorded in `loaded_words` is never shown again.  When
a completed visible job for such a word is popped (it leaves the
registry through `get_completed_jobs`) while fewer than 5 items are on
screen, the loop body drops it silently: the state — items, registry,
loaded words, flash, buffer — is unchanged, so the job is neither shown
nor converted to a backup. -/
theorem loaded_word_dropped :
    (∀ (st : GameState) (job : DownloadJob),
      st.loaded_words.contains job.word = true → st.items.length < 5 →
      processJob st job = (st, false)) ∧
    (∀ (reg : Registry) (w : String) (j : DownloadJob),
      dictGet reg.job_queue w = some j → j.is_complete = true → j.visible = true →
      w ∉ dictKeys (get_completed_jobs reg true).2.job_queue) := by
  constructor
  · intro st job hload hlt
    unfold processJob
    rw [if_neg (by intro hc; exact hc.1 (by simpa using hload)),
        if_neg (by omega)]
  · intro reg w j hget hc hv
    have hcw : w ∈ dictKeys (reg.job_queue.filter (fun p => p.2.is_complete && p.2.visible)) := by
      have hmem := dictGet_mem reg.job_queue w j hget
      exact List.mem_map.mpr ⟨(w, j), List.mem_filter.mpr ⟨hmem, by simp [hc, hv]⟩, rfl⟩
    unfold get_completed_jobs
    simp only [if_pos rfl]
    exact popWords_key_out _ _ _ hcw

/-- Witness for C10: a freshly completed "cat" job arriving after "cat"
was already displayed once is dropped with the state unchanged. -/
theorem loaded_word_dropped_witness :
    stC10.loaded_words.contains jobC1.word = true ∧ stC10.items.length < 5 ∧
    processJob stC10 jobC1 = (stC10, false) :=
  ⟨by decide, by decide, loaded_word_dropped.1 stC10 jobC1 (by decide) (by decide)⟩

/-! ## C4 — the visible pool never exceeds 5 items -/

/-- The reveal-slot consistency the loop maintains: an active flash
always points at an existing on-screen item. -/
def flashOk (st : GameState) : Bool :=
  match st.flash with
  | none => true
  | some f => f.idx < st.items.length

/-- The loop invariant: at most 5 on-screen items, and an active flash
points into the item list. -/
def PoolInv (st : GameState) : Prop :=
  st.items.length ≤ 5 ∧ flashOk st = true

theorem processJob_inv (st : GameState) (j : DownloadJob) (h : PoolInv st) :
    PoolInv (processJob st j).1 := by
  obtain ⟨h5, hf⟩ := h
  unfold processJob
  by_cases h1 : ¬ st.loaded_words.contains j.word ∧ st.items.length < 5
  · rw [if_pos h1]
    by_cases h2 : j.image_data.isSome = true
    · rw [if_pos h2]
      by_cases h3 : st.buf ≠ "" ∧ j.word = st.buf
      · rw [if_pos h3]
        refine ⟨?_, ?_⟩
        · simp only [List.length_append, List.length_cons, List.length_nil]
          omega
        · unfold flashOk
          simp only [List.length_append, List.length_cons, List.length_nil,
            decide_eq_true_eq]
          omega
      · rw [if_neg h3]
        refine ⟨?_, ?_⟩
        · simp only [List.length_append, List.length_cons, List.length_nil]
          omega
        · unfold flashOk at hf ⊢
          cases hfl : st.flash with
          | none => rfl
          | some f =>
            rw [hfl] at hf
            simp only [List.length_append, List.length_cons, List.length_nil,
              decide_eq_true_eq] at hf ⊢
            omega
    · rw [if_neg h2]
      exact ⟨h5, hf⟩
  · rw [if_neg h1]
    by_cases h2 : 5 ≤ st.items.length
    · rw [if_pos h2]
      by_cases h3 : get_backup_job_count st.reg = 0
      · rw [if_pos h3]
        exact ⟨h5, hf⟩
      · rw [if_neg h3]
        exact ⟨h5, hf⟩
    · rw [if_neg h2]
      exact ⟨h5, hf⟩

theorem processCompleted_inv : ∀ (l : List DownloadJob) (st : GameState), PoolInv st →
    PoolInv (processCompleted st l) := by
  intro l
  induction l with
  | nil => intro st h; exact h
  | cons j rest ih =>
    intro st h
    unfold processCompleted
    by_cases hb : (processJob st j).2 = true
    · rw [if_pos hb]
      exact processJob_inv st j h
    · rw [if_neg hb]
      exact ih _ (processJob_inv st j h)

theorem findMatch_lt (test : String) : ∀ (l : List Item) (i r : Nat),
    findMatch test l i = some r → r < i + l.length := by
  intro l
  induction l with
  | nil => intro i r h; simp [findMatch] at h
  | cons it rest ih =>
    intro i r h
    unfold findMatch at h
    by_cases he : it.word = test
    · rw [if_pos he] at h
      injection h with h
      subst h
      simp only [List.length_cons]
      omega
    · rw [if_neg he] at h
      have := ih (i + 1) r h
      simp only [List.length_cons]
      omega

theorem handleKeydown_inv (st : GameState) (e : KeyEvent) (h : PoolInv st) :
    PoolInv (handleKeydown st e) := by
  obtain ⟨h5, hf⟩ := h
  unfold handleKeydown
  by_cases hfl : st.flash.isSome = true
  · rw [if_pos hfl]
    exact ⟨h5, hf⟩
  · rw [if_neg hfl]
    cases e with
    | quit => exact ⟨h5, hf⟩
    | backspace => exact ⟨h5, hf⟩
    | space =>
      by_cases hsp : st.items.any (fun it => it.word.startsWith (st.buf ++ " ")) = true
      · rw [if_pos hsp]
        exact ⟨h5, hf⟩
      · rw [if_neg hsp]
        exact ⟨h5, hf⟩
    | key c =>
      simp only []
      by_cases ha : (c.toLower).isAlpha = true
      · rw [if_pos ha]
        by_cases hany : st.items.any (fun it => it.word.startsWith (st.buf.push c.toLower)) = true
        · rw [if_pos hany]
          cases hm : findMatch (st.buf.push c.toLower) st.items 0 with
          | some idx =>
            simp only [hm]
            refine ⟨h5, ?_⟩
            unfold flashOk
            have := findMatch_lt _ st.items 0 idx hm
            simp only [decide_eq_true_eq]
            omega
          | none =>
            simp only [hm]
            exact ⟨h5, hf⟩
        · rw [if_neg hany]
          exact ⟨h5, hf⟩
      · rw [if_neg ha]
        exact ⟨h5, hf⟩

theorem handleEvents_inv : ∀ (es : List KeyEvent) (st : GameState), PoolInv st →
    PoolInv (handleEvents st es) := by
  intro es
  induction es with
  | nil => intro st h; exact h
  | cons e rest ih =>
    intro st h
    cases e with
    | quit => exact ⟨h.1, h.2⟩
    | backspace => exact ih _ (handleKeydown_inv st .backspace h)
    | space => exact ih _ (handleKeydown_inv st .space h)
    | key c => exact ih _ (handleKeydown_inv st (.key c) h)

theorem endFlash_inv (st : GameState) (f : Flash) (bo : Nat → String)
    (h5 : st.items.length ≤ 5) (hidx : f.idx < st.items.length) :
    PoolInv (endFlash st f bo) := by
  unfold endFlash
  rw [if_pos hidx]
  have hlen1 : (st.items.eraseIdx f.idx).length = st.items.length - 1 :=
    List.length_eraseIdx_of_lt hidx
  cases hbk : (get_backup_job st.reg).1 with
  | none =>
    refine ⟨?_, rfl⟩
    simp only [hbk]
    rw [hlen1]
    omega
  | some bj =>
    by_cases hd : bj.image_data.isSome = true
    · refine ⟨?_, rfl⟩
      simp only [hbk, if_pos hd]
      have hpos : (if f.idx < (st.items.eraseIdx f.idx).length then f.idx
          else (st.items.eraseIdx f.idx).length) ≤ (st.items.eraseIdx f.idx).length := by
        split_ifs with hlt
        · exact le_of_lt hlt
        · exact le_refl _
      rw [List.length_insertIdx _ _ hpos]
      rw [hlen1]
      omega
    · refine ⟨?_, rfl⟩
      simp only [hbk, if_neg hd]
      rw [hlen1]
      omega

/-- C4: if the loop invariant holds before a full main-loop iteration,
the number of on-screen items after the iteration is at most 5 (and the
invariant is re-established): the promotion path appends only when
fewer than 5 items are present, and the reveal-completion path inserts
its backup replacement only after removing the revealed item. -/
theorem visible_pool_bound (st : GameState) (o : LoopOracle) (h : PoolInv st) :
    (loopIter st o).items.length ≤ 5 ∧ PoolInv (loopIter st o) := by
  have key : ∀ (stM : GameState), PoolInv stM →
      PoolInv (match stM.flash with
        | some f => if o.flashEnds then endFlash stM f o.backupOracle else stM
        | none => stM) := by
    intro stM hM
    cases hfl : stM.flash with
    | none =>
      simp only [hfl]
      exact hM
    | some f =>
      simp only [hfl]
      by_cases he : o.flashEnds = true
      · rw [if_pos he]
        refine endFlash_inv stM f o.backupOracle hM.1 ?_
        have hok := hM.2
        unfold flashOk at hok
        rw [hfl] at hok
        simpa using hok
      · rw [if_neg he]
        exact hM
  have h3 : PoolInv (handleEvents (processCompleted
      { st with reg := (get_completed_jobs (clean_failed_jobs st.reg st.hasRM o.cleanOracle) true).2 }
      (get_completed_jobs (clean_failed_jobs st.reg st.hasRM o.cleanOracle) true).1) o.events) :=
    handleEvents_inv _ _ (processCompleted_inv _ _ h)
  have hfin := key _ h3
  exact ⟨hfin.1, hfin⟩

def stInit : GameState :=
  { reg := regEmpty, items := [], rects := [], loaded_words := [], buf := "",
    flash := none, running := true, hasRM := true }

def oInit : LoopOracle :=
  { cleanOracle := fun _ _ => "tree", events := [KeyEvent.key 'c'], flashEnds := false,
    backupOracle := fun _ => "tree" }

/-- Witness for C4 at the initial state and a concrete oracle. -/
theorem visible_pool_bound_witness :
    PoolInv stInit ∧ (loopIter stInit oInit).items.length ≤ 5 :=
  ⟨⟨by decide, by decide⟩, (visible_pool_bound stInit oInit ⟨by decide, by decide⟩).1⟩

end DoodleType
